import Mathlib

/-!
Verification of the delly file-deletion tool.

The repository contains two variants of the program in `main.go`:
a sequential variant (namespace `Seq` below) and a concurrent variant
(namespace `Conc` below).  Shared helpers model the Go standard-library
string and path functions the program uses.

Modelling conventions:
* File-system paths are lists of path components (`Path`); `filepath.Dir`
  on a clean path is `List.dropLast`, and `info.Name()` is the last
  component.
* A directory walk (`filepath.Walk`) is modelled by the list of entries it
  visits, in visiting order (`WalkEntry`).  `filepath.Walk` always visits a
  directory before anything inside it and never visits a path twice; walks
  satisfying this are characterised by `wfFrom [] entries = true`.
* Go maps keyed by path are modelled either as functions
  `Path -> Option _` (the directory maps) or as association lists with
  last-write-wins insertion (the file maps, which the code iterates and
  deletes from).
* Sizes are natural numbers: `os.FileInfo.Size` is a non-negative int64
  for regular files and the aggregates stay far below 2^63, so no
  wrap-around arithmetic is involved in any claim considered here.
-/

namespace Delly

/-- A path, as its list of components from the root. -/
abbrev Path := List String

/-- Model of Go `filepath.Dir` on a clean path: drop the last component. -/
def parentDir (p : Path) : Path := p.dropLast

/-- Model of Go `info.Name()`: the base name of the path. -/
def baseName (p : Path) : String := p.getLastD ""

/-- Suffix of a character list starting at its last dot, if any. -/
def lastDotSuffix : List Char → Option (List Char)
  | [] => none
  | c :: cs =>
    match lastDotSuffix cs with
    | some s => some s
    | none => if c = '.' then some (c :: cs) else none

/-- Model of Go `filepath.Ext` on a base name: the suffix beginning at the
final dot, including the dot; empty if the name has no dot. -/
def goExt (name : String) : String :=
  match lastDotSuffix name.toList with
  | some s => ⟨s⟩
  | none => ""

/-- Model of Go `strings.TrimLeft(s, ".")`: drop every leading dot. -/
def trimLeftDots (s : String) : String :=
  ⟨s.toList.dropWhile (· = '.')⟩

/-- Model of Go `strings.TrimPrefix(s, ".")`: drop one leading dot if present. -/
def trimPrefixDot (s : String) : String :=
  match s.toList with
  | '.' :: rest => ⟨rest⟩
  | _ => s

/-- Model of Go `strings.ToLower` (kernel-reducible; ASCII fragment of the
Unicode lowering, which is all the program ever compares). -/
def goToLower (s : String) : String :=
  ⟨s.toList.map Char.toLower⟩

/-- Model of Go `strings.TrimSpace` (ASCII whitespace). -/
def goTrimSpace (s : String) : String :=
  ⟨((s.toList.dropWhile Char.isWhitespace).reverse.dropWhile Char.isWhitespace).reverse⟩

/-- Splitting a character list at a separator character. -/
def splitChar (sep : Char) : List Char → List (List Char)
  | [] => [[]]
  | c :: cs =>
    match splitChar sep cs with
    | [] => [[]]
    | seg :: segs => if c = sep then [] :: seg :: segs else (c :: seg) :: segs

/-- Model of `parseExts` (sequential variant): `strings.Split` on commas. -/
def parseExts (exts : String) : List String :=
  (splitChar ',' exts.toList).map fun cs => ⟨cs⟩

/-- One entry visited by `filepath.Walk`: its path, whether it is a
directory, and its `info.Size()`. -/
structure WalkEntry where
  path : Path
  isDir : Bool
  size : Nat
deriving DecidableEq

/-- Well-formedness of a walk relative to the set of directories already
visited: `filepath.Walk` visits each directory exactly once, before every
entry directly inside it. -/
def wfFrom (seen : List Path) : List WalkEntry → Bool
  | [] => true
  | e :: rest =>
    if e.isDir then
      (!decide (e.path ∈ seen)) && wfFrom (e.path :: seen) rest
    else
      decide (parentDir e.path ∈ seen) && wfFrom seen rest

namespace Seq

/-- Model of `matchExt` (sequential variant):
`strings.TrimLeft(filepath.Ext(file), ".") == e` for some requested `e`.
The comparison is exact, hence case-sensitive. -/
def matchExt (file : String) (ext : List String) : Bool :=
  ext.any fun e => decide (trimLeftDots (goExt file) = e)

end Seq

namespace Conc

/-- Model of `matchExt` (concurrent variant): the candidate extension is
lowercased and compared exactly against each requested entry. -/
def matchExt (ext : String) (exts : List String) : Bool :=
  exts.any fun validExt => decide (goToLower ext = validExt)

/-- The extension string `WalkDirs` computes for a file before calling
`matchExt`: `strings.ToLower(strings.TrimPrefix(filepath.Ext(name), "."))`. -/
def walkExtOf (name : String) : String :=
  goToLower (trimPrefixDot (goExt name))

/-- The complete per-file match test of the concurrent variant. -/
def nameMatches (name : String) (exts : List String) : Bool :=
  matchExt (walkExtOf name) exts

end Conc

/-- A directory size record (sequential variant `dirMeta`). -/
structure dirMeta where
  size : Nat
  bytesDeleted : Nat
deriving DecidableEq

/-- The sequential variant's `dirMap`: a Go map from directory path to
`dirMeta`, modelled as a function to `Option dirMeta`. -/
def dirMap : Type := Path → Option dirMeta

/-- The empty Go map. -/
def dirMap.empty : dirMap := fun _ => none

/-- Go map assignment `m[k] = v`. -/
def dirMap.set (m : dirMap) (k : Path) (v : dirMeta) : dirMap :=
  fun p => if p = k then some v else m p

/-- Association-list model of a Go `map[string]int64` that the program also
iterates over and deletes from (the file maps). -/
abbrev fileMap := List (Path × Nat)

/-- First value stored under a key, if any (Go map read). -/
def lookupF : fileMap → Path → Option Nat
  | [], _ => none
  | (k, v) :: l, p => if p = k then some v else lookupF l p

/-- Go `delete(m, k)` for a file map. -/
def eraseF : fileMap → Path → fileMap
  | [], _ => []
  | (k1, v1) :: l, k => if k1 = k then eraseF l k else (k1, v1) :: eraseF l k

/-- Go map assignment for a file map: last write wins, so the previous
binding of the key is dropped. -/
def setF (l : fileMap) (k : Path) (v : Nat) : fileMap :=
  eraseF l k ++ [(k, v)]

/-- Outcome of one run of either variant's command action, as far as the
claims are concerned: the decision-bearing lines printed, the process exit
code, the files actually removed from storage, and whether the directory
summary, the file listing, and the confirmation prompt were reached. -/
structure RunResult where
  printed : List String
  exitCode : Nat
  removed : List Path
  dirReportShown : Bool
  fileReportShown : Bool
  promptRan : Bool
deriving DecidableEq

namespace Seq

/-- One step of the `collectDirSizes` walk callback: a directory gets a
zero-initialised record; a file adds its size to its parent's record when
that record exists. -/
def collectStep (m : dirMap) (e : WalkEntry) : dirMap :=
  if e.isDir then m.set e.path ⟨0, 0⟩
  else
    match m (parentDir e.path) with
    | some sz => m.set (parentDir e.path) ⟨sz.size + e.size, sz.bytesDeleted⟩
    | none => m

/-- Model of `collectDirSizes`: fold the callback over the walk. -/
def collectDirSizes (entries : List WalkEntry) : dirMap :=
  entries.foldl collectStep dirMap.empty

/-- Model of `collectFileSizes`: record every matched file with its size and
accumulate the matched byte total. -/
def collectFileSizes (entries : List WalkEntry) (exts : List String) :
    fileMap × Nat :=
  entries.foldl
    (fun acc e =>
      if !e.isDir && matchExt (baseName e.path) exts then
        (setF acc.1 e.path e.size, acc.2 + e.size)
      else acc)
    ([], 0)

/-- State of the `deleteFilesByExtension` walk: the directory map being
credited, the files successfully removed so far (with the size credited for
each), and whether a failed `os.Remove` has aborted the walk (the callback
returns the error, which stops `filepath.Walk`). -/
structure DelState where
  dmap : dirMap
  removed : List (Path × Nat)
  aborted : Bool

/-- One step of the `deleteFilesByExtension` walk callback. -/
def delStep (exts : List String) (removeOk : Path → Bool)
    (s : DelState) (e : WalkEntry) : DelState :=
  if s.aborted then s
  else if e.isDir then s
  else if matchExt (baseName e.path) exts then
    match s.dmap (parentDir e.path) with
    | some sz =>
      if removeOk e.path then
        { dmap := s.dmap.set (parentDir e.path) ⟨sz.size, sz.bytesDeleted + e.size⟩
          removed := s.removed ++ [(e.path, e.size)]
          aborted := false }
      else { s with aborted := true }
    | none => s
  else s

/-- Model of `deleteFilesByExtension`.  The second component is the error
the Go function returns: the walk's error is discarded, so it is `none` for
every input. -/
def deleteFilesByExtension (entries : List WalkEntry) (exts : List String)
    (dmap : dirMap) (removeOk : Path → Bool) : DelState × Option String :=
  (entries.foldl (delStep exts removeOk) ⟨dmap, [], false⟩, none)

/-- Model of `askForConfirmation`: consume input lines until one trims and
lowercases to an accepted answer.  `none` models exhaustion of the stream:
the next `ReadString` fails and `log.Fatal` terminates the process with
exit code 1. -/
def askForConfirmation : List String → Option Bool
  | [] => none
  | line :: rest =>
    let response := goToLower (goTrimSpace line)
    if response = "y" ∨ response = "yes" then some true
    else if response = "n" ∨ response = "no" then some false
    else askForConfirmation rest

/-- Model of the sequential variant's `Action`: dry run, zero check,
confirmation, then deletion and the directory report. -/
def action (entries : List WalkEntry) (exts : List String)
    (inputs : List String) (removeOk : Path → Bool) : RunResult :=
  let elems := (collectFileSizes entries exts).1.length
  if elems = 0 then
    ⟨["There is nothing to delete. Exiting..."], 0, [], false, false, false⟩
  else
    match askForConfirmation inputs with
    | none => ⟨[], 1, [], false, true, true⟩
    | some false => ⟨["exiting..."], 0, [], false, true, true⟩
    | some true =>
      let dmap := collectDirSizes entries
      let st := (deleteFilesByExtension entries exts dmap removeOk).1
      ⟨[], 0, st.removed.map Prod.fst, true, true, true⟩

end Seq

namespace Conc

/-- The concurrent variant's `DirMeta`. -/
structure DirMeta where
  Size : Nat
  Deleted : Nat
deriving DecidableEq

/-- The `Dirs` map of the concurrent variant's `Metadata`. -/
def DirsMap : Type := Path → Option DirMeta

/-- Go map assignment `Dirs[k] = v`. -/
def DirsMap.set (m : DirsMap) (k : Path) (v : DirMeta) : DirsMap :=
  fun p => if p = k then some v else m p

/-- The concurrent variant's `Metadata`. -/
structure Metadata where
  Dirs : DirsMap
  Files : fileMap
  Total : Nat

/-- One step of the `WalkDirs` walk callback: record a matched file and its
size in `Files` and `Total`, then add the entry's size to its parent
directory's `Size` (creating the record if needed). -/
def walkStep (exts : List String) (m : Metadata) (e : WalkEntry) : Metadata :=
  let d := parentDir e.path
  let m1 :=
    if !e.isDir && nameMatches (baseName e.path) exts then
      { m with Files := setF m.Files e.path e.size, Total := m.Total + e.size }
    else m
  let dm := (m1.Dirs d).getD ⟨0, 0⟩
  { m1 with Dirs := m1.Dirs.set d ⟨dm.Size + e.size, dm.Deleted⟩ }

/-- Model of `WalkDirs`: fold the callback over the walk from an empty
`Metadata`. -/
def WalkDirs (entries : List WalkEntry) (exts : List String) : Metadata :=
  entries.foldl (walkStep exts) ⟨fun _ => none, [], 0⟩

/-- State threaded through the deletion goroutines.  The mutex serialises
every critical section, so the concurrent execution is a sequence of
`delOne` steps, one per goroutine, in some order; `totalDeleted` only ever
receives additions of zero (see `delOne`), so its unsynchronised updates
are order-independent as well. -/
structure DelCState where
  Dirs : DirsMap
  Files : fileMap
  totalDeleted : Nat
  removed : List Path

/-- The ancestor-propagation loop of the concurrent `deleteFiles`,
`for dir != "." && dir != "/"`, with the empty path modelling both stop
values.  Each pass adds `meta.Files[path]` — read after that entry was
deleted — to the directory's `Deleted`.  The fuel argument starts at the
length of the starting directory and bounds the loop exactly, since each
pass moves to the parent. -/
def ancLoop (fp : Path) (files : fileMap) :
    Nat → Path → DirsMap → DirsMap
  | 0, _, dirs => dirs
  | _ + 1, [], dirs => dirs
  | n + 1, s :: rest, dirs =>
    let d := s :: rest
    let dirs1 :=
      match dirs d with
      | some dm => dirs.set d ⟨dm.Size, dm.Deleted + (lookupF files fp).getD 0⟩
      | none => dirs
    ancLoop fp files n (parentDir d) dirs1

/-- One goroutine body of the concurrent `deleteFiles` (its critical
section plus the unsynchronised `totalDeleted` update).  On a failed
`os.Remove` the error is logged and nothing else happens.  On success the
immediate parent is credited with `meta.Files[path]`, the entry is deleted
from `Files`, the ancestor loop runs (reading the now-deleted entry), and
`totalDeleted` accumulates the now-deleted entry as well. -/
def delOne (removeOk : Path → Bool) (st : DelCState) (p : Path) : DelCState :=
  if removeOk p then
    let d := parentDir p
    let dirs1 :=
      match st.Dirs d with
      | some dm => st.Dirs.set d ⟨dm.Size, dm.Deleted + (lookupF st.Files p).getD 0⟩
      | none => st.Dirs
    let files1 := eraseF st.Files p
    let dirs2 := ancLoop p files1 d.length d dirs1
    { Dirs := dirs2
      Files := files1
      totalDeleted := st.totalDeleted + (lookupF files1 p).getD 0
      removed := st.removed ++ [p] }
  else st

/-- Model of the concurrent `deleteFiles`: list the keys of `Files`, and if
there are none report and stop; otherwise run one goroutine per key and
finally subtract `totalDeleted` from `Total`.  The second component lists
the files actually removed. -/
def deleteFiles (meta : Metadata) (removeOk : Path → Bool) :
    Metadata × List Path :=
  let filesToDelete := meta.Files.map Prod.fst
  if filesToDelete.isEmpty then (meta, [])
  else
    let st := filesToDelete.foldl (delOne removeOk) ⟨meta.Dirs, meta.Files, 0, []⟩
    (⟨st.Dirs, st.Files, meta.Total - st.totalDeleted⟩, st.removed)

/-- Model of `askConfirm`: consume input lines until one trims to an
accepted answer (the switch lowercases it).  The read error is discarded,
so once the stream is exhausted every further read yields an empty string
that matches no case: the loop never terminates.  `none` models that
divergence. -/
def askConfirm : List String → Option Bool
  | [] => none
  | line :: rest =>
    let text := goToLower (goTrimSpace line)
    if text = "y" ∨ text = "yes" then some true
    else if text = "n" ∨ text = "no" then some false
    else askConfirm rest

/-- Model of the concurrent variant's `Action`.  `none` models divergence
(the process never terminates, which happens when the confirmation loop
runs out of readable input). -/
def action (entries : List WalkEntry) (exts : List String)
    (inputs : List String) (removeOk : Path → Bool) : Option RunResult :=
  let meta := WalkDirs entries exts
  if meta.Total = 0 then
    some ⟨["Nothing to delete"], 0, [], false, false, false⟩
  else
    match askConfirm inputs with
    | none => none
    | some false => some ⟨["Exiting..."], 0, [], false, true, true⟩
    | some true =>
      let (_, removed) := deleteFiles meta removeOk
      some ⟨[], 0, removed, true, true, true⟩

end Conc

namespace Seq

/-- Total size of the file entries lying directly in directory `d`. -/
def sumFilesUnder (d : Path) (entries : List WalkEntry) : Nat :=
  ((entries.filter fun e => !e.isDir && decide (parentDir e.path = d)).map
    (·.size)).sum

/-- Total size of the matched file entries lying directly in directory `d`. -/
def sumMatchedUnder (exts : List String) (d : Path)
    (entries : List WalkEntry) : Nat :=
  ((entries.filter fun e =>
      !e.isDir && matchExt (baseName e.path) exts
        && decide (parentDir e.path = d)).map (·.size)).sum

/-- Size already recorded for a directory, zero if it has no record yet. -/
def partialSize (m : dirMap) (d : Path) : Nat :=
  match m d with
  | some sz => sz.size
  | none => 0

end Seq

namespace Conc

/-- Total size recorded in a file map for entries directly in `d`. -/
def assocSizeUnder (d : Path) (l : fileMap) : Nat :=
  ((l.filter fun kv => decide (parentDir kv.1 = d)).map (·.2)).sum

/-- Bytes the still-pending deletions can credit to directory `d`, looked
up in the current file map. -/
def pendingCredit (d : Path) (pend : List Path) (files : fileMap) : Nat :=
  (pend.map fun p =>
    if parentDir p = d then (lookupF files p).getD 0 else 0).sum

end Conc

/-- A walk of a root directory holding two matched files: the fixture for
the abort-on-failure and orchestration scenarios. -/
def treeTwo : List WalkEntry :=
  [⟨["r"], true, 0⟩, ⟨["r", "a.png"], false, 10⟩, ⟨["r", "b.png"], false, 20⟩]

/-- A walk of a root directory holding one matched file of size zero. -/
def treeZero : List WalkEntry :=
  [⟨["r"], true, 0⟩, ⟨["r", "a.png"], false, 0⟩]

/-- A walk of a root directory holding one matched file. -/
def treeOne : List WalkEntry :=
  [⟨["r"], true, 0⟩, ⟨["r", "a.png"], false, 10⟩]

/-- Removal succeeds on every path. -/
def removeAll : Path → Bool := fun _ => true

/-- Removal fails exactly on `r/a.png`. -/
def removeNotA : Path → Bool := fun p => !decide (p = ["r", "a.png"])

end Delly

namespace Delly

/-- Sum of a filtered-and-mapped cons. -/
theorem sum_filter_cons {α : Type} (p : α → Bool) (f : α → Nat) (a : α)
    (l : List α) :
    (((a :: l).filter p).map f).sum
      = (if p a = true then f a else 0) + ((l.filter p).map f).sum := by
  rw [List.filter_cons]
  by_cases h : p a = true
  · rw [if_pos h, if_pos h, List.map_cons, List.sum_cons]
  · rw [if_neg h, if_neg h, Nat.zero_add]

/-- A stronger filter gives a smaller sum. -/
theorem sum_filter_le_sum_filter {α : Type} (p q : α → Bool) (f : α → Nat)
    (h : ∀ a, p a = true → q a = true) :
    ∀ l : List α, ((l.filter p).map f).sum ≤ ((l.filter q).map f).sum := by
  intro l
  induction l with
  | nil => exact Nat.le_refl 0
  | cons a l ih =>
    rw [sum_filter_cons, sum_filter_cons]
    by_cases hp : p a = true
    · rw [if_pos hp, if_pos (h a hp)]
      exact Nat.add_le_add_left ih _
    · rw [if_neg hp, Nat.zero_add]
      by_cases hq : q a = true
      · rw [if_pos hq]
        exact Nat.le_trans ih (Nat.le_add_left _ _)
      · rw [if_neg hq, Nat.zero_add]
        exact ih

/-- Directory entries contribute nothing to `sumFilesUnder`. -/
theorem Seq.sumFilesUnder_cons (d : Path) (e : WalkEntry)
    (rest : List WalkEntry) :
    Seq.sumFilesUnder d (e :: rest)
      = (if e.isDir = false ∧ parentDir e.path = d then e.size else 0)
        + Seq.sumFilesUnder d rest := by
  unfold Seq.sumFilesUnder
  rw [sum_filter_cons]
  congr 1
  by_cases h1 : e.isDir
  · rw [if_neg (by simp [h1]), if_neg (by simp [h1])]
  · by_cases h2 : parentDir e.path = d
    · rw [if_pos (by simp [h1, h2]), if_pos ⟨by simp [h1], h2⟩]
    · rw [if_neg (by simp [h2]), if_neg (by simp [h2])]

/-- Cons unfolding for `sumMatchedUnder`. -/
theorem Seq.sumMatchedUnder_cons (exts : List String) (d : Path)
    (e : WalkEntry) (rest : List WalkEntry) :
    Seq.sumMatchedUnder exts d (e :: rest)
      = (if e.isDir = false ∧ Seq.matchExt (baseName e.path) exts = true
            ∧ parentDir e.path = d then e.size else 0)
        + Seq.sumMatchedUnder exts d rest := by
  unfold Seq.sumMatchedUnder
  rw [sum_filter_cons]
  congr 1
  by_cases h1 : e.isDir
  · rw [if_neg (by simp [h1]), if_neg (by simp [h1])]
  · by_cases h2 : Seq.matchExt (baseName e.path) exts = true
    · by_cases h3 : parentDir e.path = d
      · rw [if_pos (by simp [h1, h2, h3]), if_pos ⟨by simp [h1], h2, h3⟩]
      · rw [if_neg (by simp [h3]), if_neg (by simp [h3])]
    · rw [if_neg (by simp [h2]), if_neg (by simp [h2])]

/-- The matched-files sum is bounded by the all-files sum. -/
theorem Seq.sumMatchedUnder_le (exts : List String) (d : Path)
    (entries : List WalkEntry) :
    Seq.sumMatchedUnder exts d entries ≤ Seq.sumFilesUnder d entries := by
  refine sum_filter_le_sum_filter _ _ _ ?_ entries
  intro e he
  simp only [Bool.and_eq_true] at he ⊢
  exact ⟨he.1.1, he.2⟩

/-- Characterisation of the `collectDirSizes` fold from a partial state: on
a well-formed remaining walk, every directory record it produces has
`bytesDeleted` zero and a size at least the recorded partial size plus the
sizes of all remaining files directly under the directory. -/
theorem Seq.collect_char :
    ∀ (rest : List WalkEntry) (seen : List Path) (m : dirMap),
      wfFrom seen rest = true →
      (∀ d, d ∈ seen → ∃ s, m d = some ⟨s, 0⟩) →
      (∀ d, d ∉ seen → m d = none) →
      ∀ d, (rest.foldl Seq.collectStep m) d = none
        ∨ ∃ s, (rest.foldl Seq.collectStep m) d = some ⟨s, 0⟩
            ∧ Seq.partialSize m d + Seq.sumFilesUnder d rest ≤ s := by
  intro rest
  induction rest with
  | nil =>
    intro seen m _ hseen hun d
    by_cases hd : d ∈ seen
    · obtain ⟨s, hs⟩ := hseen d hd
      refine Or.inr ⟨s, hs, ?_⟩
      have : Seq.partialSize m d = s := by rw [Seq.partialSize, hs]
      rw [this]
      simp [Seq.sumFilesUnder]
    · exact Or.inl (hun d hd)
  | cons e rest ih =>
    intro seen m hwf hseen hun d
    rw [List.foldl_cons]
    cases he : e.isDir with
    | true =>
      rw [wfFrom, he, if_pos rfl, Bool.and_eq_true, Bool.not_eq_true',
        decide_eq_false_iff_not] at hwf
      obtain ⟨hnew, hwf⟩ := hwf
      have hstep : Seq.collectStep m e = dirMap.set m e.path ⟨0, 0⟩ := by
        rw [Seq.collectStep, if_pos he]
      rw [hstep]
      have hseen' : ∀ x, x ∈ e.path :: seen →
          ∃ s, dirMap.set m e.path ⟨0, 0⟩ x = some ⟨s, 0⟩ := by
        intro x hx
        rcases List.mem_cons.mp hx with h | h
        · exact ⟨0, by rw [dirMap.set, if_pos h]⟩
        · obtain ⟨s, hs⟩ := hseen x h
          have hne : ¬(x = e.path) := by
            intro hh
            rw [hh] at h
            exact hnew h
          exact ⟨s, by rw [dirMap.set, if_neg hne, hs]⟩
      have hun' : ∀ x, x ∉ e.path :: seen →
          dirMap.set m e.path ⟨0, 0⟩ x = none := by
        intro x hx
        have hne : ¬(x = e.path) := by
          intro hh
          rw [hh] at hx
          exact hx (List.mem_cons_self e.path seen)
        have hxs : x ∉ seen := fun hh => hx (List.mem_cons_of_mem _ hh)
        rw [dirMap.set, if_neg hne, hun x hxs]
      rcases ih (e.path :: seen) (dirMap.set m e.path ⟨0, 0⟩) hwf hseen' hun' d
        with h | ⟨s, hs, hle⟩
      · exact Or.inl h
      · refine Or.inr ⟨s, hs, ?_⟩
        rw [Seq.sumFilesUnder_cons, if_neg (by simp [he]), Nat.zero_add]
        refine Nat.le_trans (Nat.add_le_add_right ?_ _) hle
        by_cases hde : d = e.path
        · subst hde
          rw [Seq.partialSize, hun e.path hnew]
          exact Nat.zero_le _
        · rw [Seq.partialSize, Seq.partialSize, dirMap.set, if_neg hde]
    | false =>
      rw [wfFrom, he, if_neg (by simp), Bool.and_eq_true,
        decide_eq_true_eq] at hwf
      obtain ⟨hpar, hwf⟩ := hwf
      obtain ⟨s0, hs0⟩ := hseen (parentDir e.path) hpar
      have hstep : Seq.collectStep m e
          = dirMap.set m (parentDir e.path) ⟨s0 + e.size, 0⟩ := by
        rw [Seq.collectStep, if_neg (by simp [he]), hs0]
      rw [hstep]
      have hseen' : ∀ x, x ∈ seen →
          ∃ s, dirMap.set m (parentDir e.path) ⟨s0 + e.size, 0⟩ x
            = some ⟨s, 0⟩ := by
        intro x hx
        by_cases hdp : x = parentDir e.path
        · exact ⟨s0 + e.size, by rw [dirMap.set, if_pos hdp]⟩
        · obtain ⟨s, hs⟩ := hseen x hx
          exact ⟨s, by rw [dirMap.set, if_neg hdp, hs]⟩
      have hun' : ∀ x, x ∉ seen →
          dirMap.set m (parentDir e.path) ⟨s0 + e.size, 0⟩ x = none := by
        intro x hx
        have hne : ¬(x = parentDir e.path) := by
          intro hh
          rw [hh] at hx
          exact hx hpar
        rw [dirMap.set, if_neg hne, hun x hx]
      rcases ih seen (dirMap.set m (parentDir e.path) ⟨s0 + e.size, 0⟩) hwf
        hseen' hun' d with h | ⟨s, hs, hle⟩
      · exact Or.inl h
      · refine Or.inr ⟨s, hs, ?_⟩
        rw [Seq.sumFilesUnder_cons]
        by_cases hdp : parentDir e.path = d
        · rw [if_pos ⟨he, hdp⟩]
          have h1 : Seq.partialSize
              (dirMap.set m (parentDir e.path) ⟨s0 + e.size, 0⟩) d
              = s0 + e.size := by
            rw [Seq.partialSize, dirMap.set, if_pos hdp.symm]
          have hs0' : m d = some ⟨s0, 0⟩ := by
            rw [← hdp]
            exact hs0
          have h2 : Seq.partialSize m d = s0 := by
            rw [Seq.partialSize, hs0']
          rw [h1] at hle
          rw [h2]
          omega
        · rw [if_neg (by intro hh; exact hdp hh.2), Nat.zero_add]
          have h1 : Seq.partialSize
              (dirMap.set m (parentDir e.path) ⟨s0 + e.size, 0⟩) d
              = Seq.partialSize m d := by
            rw [Seq.partialSize, Seq.partialSize, dirMap.set,
              if_neg (fun hh => hdp hh.symm)]
          rw [h1] at hle
          exact hle

/-- On a well-formed walk, every record `collectDirSizes` produces has
`bytesDeleted` zero and a size bounding the total size of the files
directly under the directory. -/
theorem Seq.collectDirSizes_spec (entries : List WalkEntry)
    (h : wfFrom [] entries = true) :
    ∀ d meta, Seq.collectDirSizes entries d = some meta →
      meta.bytesDeleted = 0 ∧ Seq.sumFilesUnder d entries ≤ meta.size := by
  intro d meta hm
  have := Seq.collect_char entries [] dirMap.empty h
    (fun d hd => absurd hd (List.not_mem_nil d))
    (fun d _ => rfl) d
  rcases this with hnone | ⟨s, hs, hle⟩
  · rw [Seq.collectDirSizes] at hm
    rw [hm] at hnone
    exact absurd hnone (Option.some_ne_none meta)
  · rw [Seq.collectDirSizes] at hm
    rw [hm] at hs
    cases Option.some_inj.mp hs
    have hps : Seq.partialSize dirMap.empty d = 0 := rfl
    rw [hps, Nat.zero_add] at hle
    exact ⟨rfl, hle⟩

/-- One deletion-walk step preserves the budget invariant: every directory
record's `bytesDeleted`, plus everything the remaining walk can still
credit to it, stays within its size. -/
theorem Seq.delStep_preserves (exts : List String) (removeOk : Path → Bool)
    (s : Seq.DelState) (e : WalkEntry) (rest : List WalkEntry)
    (h : ∀ d meta, s.dmap d = some meta →
      meta.bytesDeleted + Seq.sumMatchedUnder exts d (e :: rest) ≤ meta.size) :
    ∀ d meta, (Seq.delStep exts removeOk s e).dmap d = some meta →
      meta.bytesDeleted + Seq.sumMatchedUnder exts d rest ≤ meta.size := by
  have hmono : ∀ x meta', s.dmap x = some meta' →
      meta'.bytesDeleted + Seq.sumMatchedUnder exts x rest ≤ meta'.size := by
    intro x meta' hx
    refine Nat.le_trans ?_ (h x meta' hx)
    rw [Seq.sumMatchedUnder_cons]
    omega
  intro d meta hm
  unfold Seq.delStep at hm
  by_cases hab : s.aborted
  · rw [if_pos hab] at hm
    exact hmono d meta hm
  · rw [if_neg hab] at hm
    cases hdir : e.isDir with
    | true =>
      rw [hdir, if_pos rfl] at hm
      exact hmono d meta hm
    | false =>
      rw [hdir, if_neg Bool.false_ne_true] at hm
      cases hmatch : Seq.matchExt (baseName e.path) exts with
      | false =>
        rw [hmatch, if_neg Bool.false_ne_true] at hm
        exact hmono d meta hm
      | true =>
        rw [hmatch, if_pos rfl] at hm
        cases hp : s.dmap (parentDir e.path) with
        | none =>
          rw [hp] at hm
          exact hmono d meta hm
        | some sz =>
          rw [hp] at hm
          cases hrk : removeOk e.path with
          | false =>
            rw [hrk] at hm
            exact hmono d meta hm
          | true =>
            rw [hrk] at hm
            have hm2 : dirMap.set s.dmap (parentDir e.path)
                ⟨sz.size, sz.bytesDeleted + e.size⟩ d = some meta := hm
            by_cases hdp : d = parentDir e.path
            · rw [dirMap.set, if_pos hdp] at hm2
              cases Option.some_inj.mp hm2
              have hb := h (parentDir e.path) sz hp
              rw [Seq.sumMatchedUnder_cons,
                if_pos ⟨hdir, hmatch, rfl⟩] at hb
              subst hdp
              show sz.bytesDeleted + e.size
                  + Seq.sumMatchedUnder exts (parentDir e.path) rest ≤ sz.size
              omega
            · rw [dirMap.set, if_neg hdp] at hm2
              exact hmono d meta hm2

/-- Every prefix of the deletion walk keeps `bytesDeleted` within the
recorded size, provided the starting state has enough budget. -/
theorem Seq.delWalk_le (exts : List String) (removeOk : Path → Bool) :
    ∀ (l : List WalkEntry) (s : Seq.DelState),
      (∀ d meta, s.dmap d = some meta →
        meta.bytesDeleted + Seq.sumMatchedUnder exts d l ≤ meta.size) →
      ∀ (k : Nat) d meta,
        ((l.take k).foldl (Seq.delStep exts removeOk) s).dmap d = some meta →
        meta.bytesDeleted ≤ meta.size := by
  intro l
  induction l with
  | nil =>
    intro s h k d meta hm
    rw [List.take_nil, List.foldl_nil] at hm
    have := h d meta hm
    omega
  | cons e rest ih =>
    intro s h k d meta hm
    cases k with
    | zero =>
      rw [List.take_zero, List.foldl_nil] at hm
      have := h d meta hm
      omega
    | succ k =>
      rw [List.take_succ_cons, List.foldl_cons] at hm
      exact ih (Seq.delStep exts removeOk s e)
        (Seq.delStep_preserves exts removeOk s e rest h) k d meta hm

/-- Looking a key up after erasing one: the erased key is gone, the rest
are untouched. -/
theorem lookupF_eraseF (l : fileMap) (k q : Path) :
    lookupF (eraseF l k) q = if q = k then none else lookupF l q := by
  induction l with
  | nil => simp [eraseF, lookupF]
  | cons kv l ih =>
    obtain ⟨a, v⟩ := kv
    by_cases hak : a = k
    · rw [eraseF, if_pos hak, ih]
      by_cases hq : q = k
      · rw [if_pos hq, if_pos hq]
      · rw [if_neg hq, if_neg hq, lookupF,
          if_neg (fun h : q = a => hq (h.trans hak))]
    · rw [eraseF, if_neg hak, lookupF]
      by_cases hqa : q = a
      · rw [if_pos hqa, if_neg (fun h : q = k => hak (hqa ▸ h)), lookupF,
          if_pos hqa]
      · rw [if_neg hqa, ih, lookupF, if_neg hqa]

/-- Overwriting a directory record with its current value changes nothing. -/
theorem Conc.DirsMap.set_self (dirs : Conc.DirsMap) (d : Path)
    (dm : Conc.DirMeta) (h : dirs d = some dm) (x : Path) :
    Conc.DirsMap.set dirs d dm x = dirs x := by
  unfold Conc.DirsMap.set
  by_cases hx : x = d
  · rw [if_pos hx, hx, h]
  · rw [if_neg hx]

/-- Once the deleted file's entry is gone from the file map, every pass of
the ancestor loop adds zero, so the loop does not change the directory map
at any point. -/
theorem Conc.ancLoop_noop (fp : Path) (files : fileMap)
    (h : lookupF files fp = none) :
    ∀ (n : Nat) (d : Path) (dirs : Conc.DirsMap) (x : Path),
      Conc.ancLoop fp files n d dirs x = dirs x := by
  intro n
  induction n with
  | zero => intro d dirs x; rfl
  | succ n ih =>
    intro d dirs x
    match d with
    | [] => rfl
    | s :: rest =>
      rw [Conc.ancLoop]
      cases hd : dirs (s :: rest) with
      | none => rw [ih]
      | some dm =>
        rw [ih]
        show Conc.DirsMap.set dirs (s :: rest)
          ⟨dm.Size, dm.Deleted + (lookupF files fp).getD 0⟩ x = dirs x
        rw [h]
        exact Conc.DirsMap.set_self dirs (s :: rest) dm hd x

/-- The removed list after one goroutine: the file is appended exactly when
its removal succeeded. -/
theorem Conc.delOne_removed (removeOk : Path → Bool) (st : Conc.DelCState)
    (p : Path) :
    (Conc.delOne removeOk st p).removed
      = st.removed ++ if removeOk p then [p] else [] := by
  unfold Conc.delOne
  cases h : removeOk p
  · simp
  · simp

/-- The unsynchronised accumulator only ever receives the map entry of a
file already deleted from the map, so it stays at its initial value. -/
theorem Conc.delOne_totalDeleted (removeOk : Path → Bool)
    (st : Conc.DelCState) (p : Path) :
    (Conc.delOne removeOk st p).totalDeleted = st.totalDeleted := by
  unfold Conc.delOne
  cases h : removeOk p
  · rfl
  · simp only [if_true]
    rw [lookupF_eraseF, if_pos rfl]
    rfl

/-- The removed list of a whole concurrent deletion round is exactly the
successfully removable part of the order, independent of failures. -/
theorem Conc.foldl_delOne_removed (removeOk : Path → Bool) :
    ∀ (order : List Path) (st : Conc.DelCState),
      (order.foldl (Conc.delOne removeOk) st).removed
        = st.removed ++ order.filter (fun p => removeOk p) := by
  intro order
  induction order with
  | nil => intro st; simp
  | cons p rest ih =>
    intro st
    rw [List.foldl_cons, ih, Conc.delOne_removed, List.filter_cons]
    cases h : removeOk p <;> simp [h]

/-- The accumulator stays zero over a whole concurrent deletion round. -/
theorem Conc.foldl_delOne_totalDeleted (removeOk : Path → Bool) :
    ∀ (order : List Path) (st : Conc.DelCState),
      (order.foldl (Conc.delOne removeOk) st).totalDeleted
        = st.totalDeleted := by
  intro order
  induction order with
  | nil => intro st; rfl
  | cons p rest ih =>
    intro st
    rw [List.foldl_cons, ih, Conc.delOne_totalDeleted]

/-- Cons unfolding for `assocSizeUnder`. -/
theorem Conc.assocSizeUnder_cons (d a : Path) (v : Nat) (l : fileMap) :
    Conc.assocSizeUnder d ((a, v) :: l)
      = (if parentDir a = d then v else 0) + Conc.assocSizeUnder d l := by
  unfold Conc.assocSizeUnder
  rw [sum_filter_cons]
  congr 1
  by_cases h : parentDir a = d
  · rw [if_pos (by simp [h]), if_pos h]
  · rw [if_neg (by simp [h]), if_neg h]

/-- Append unfolding for `assocSizeUnder`. -/
theorem Conc.assocSizeUnder_append (d : Path) (l1 l2 : fileMap) :
    Conc.assocSizeUnder d (l1 ++ l2)
      = Conc.assocSizeUnder d l1 + Conc.assocSizeUnder d l2 := by
  unfold Conc.assocSizeUnder
  rw [List.filter_append, List.map_append, List.sum_append]

/-- Erasing a key can only lose recorded size. -/
theorem Conc.assocSizeUnder_eraseF_le (d : Path) (l : fileMap) (k : Path) :
    Conc.assocSizeUnder d (eraseF l k) ≤ Conc.assocSizeUnder d l := by
  induction l with
  | nil => exact Nat.le_refl 0
  | cons kv l ih =>
    obtain ⟨a, v⟩ := kv
    by_cases hak : a = k
    · rw [eraseF, if_pos hak, Conc.assocSizeUnder_cons]
      exact Nat.le_trans ih (Nat.le_add_left _ _)
    · rw [eraseF, if_neg hak, Conc.assocSizeUnder_cons,
        Conc.assocSizeUnder_cons]
      exact Nat.add_le_add_left ih _

/-- A map write adds at most the written size, to the key's parent only. -/
theorem Conc.assocSizeUnder_setF_le (d k : Path) (v : Nat) (l : fileMap) :
    Conc.assocSizeUnder d (setF l k v)
      ≤ Conc.assocSizeUnder d l + (if parentDir k = d then v else 0) := by
  unfold setF
  rw [Conc.assocSizeUnder_append, Conc.assocSizeUnder_cons]
  have h0 : Conc.assocSizeUnder d ([] : fileMap) = 0 := rfl
  rw [h0, Nat.add_zero]
  exact Nat.add_le_add_right (Conc.assocSizeUnder_eraseF_le d l k) _

/-- Erasing a key yields a sublist of the map. -/
theorem eraseF_sublist (l : fileMap) (k : Path) :
    List.Sublist (eraseF l k) l := by
  induction l with
  | nil => exact List.Sublist.refl []
  | cons kv l ih =>
    obtain ⟨a, v⟩ := kv
    by_cases hak : a = k
    · rw [eraseF, if_pos hak]
      exact List.Sublist.trans ih (List.sublist_cons_self (a, v) l)
    · rw [eraseF, if_neg hak]
      exact List.Sublist.cons₂ (a, v) ih

/-- The erased key no longer occurs among the keys. -/
theorem keys_eraseF_not_mem (l : fileMap) (k : Path) :
    k ∉ (eraseF l k).map Prod.fst := by
  induction l with
  | nil => exact List.not_mem_nil k
  | cons kv l ih =>
    obtain ⟨a, v⟩ := kv
    by_cases hak : a = k
    · rw [eraseF, if_pos hak]
      exact ih
    · rw [eraseF, if_neg hak, List.map_cons]
      intro hmem
      rcases List.mem_cons.mp hmem with h | h
      · exact hak h.symm
      · exact ih h

/-- A map write preserves distinctness of the keys. -/
theorem nodupKeys_setF (l : fileMap) (k : Path) (v : Nat)
    (h : (l.map Prod.fst).Nodup) : ((setF l k v).map Prod.fst).Nodup := by
  unfold setF
  rw [List.map_append]
  have h1 : ((eraseF l k).map Prod.fst).Nodup :=
    h.sublist (List.Sublist.map Prod.fst (eraseF_sublist l k))
  refine List.Nodup.append h1 (List.nodup_singleton k) ?_
  intro a ha hb
  rw [List.map_cons, List.map_nil, List.mem_singleton] at hb
  rw [hb] at ha
  exact keys_eraseF_not_mem l k ha

/-- Cons unfolding for `pendingCredit`. -/
theorem Conc.pendingCredit_cons (d p : Path) (pend : List Path)
    (files : fileMap) :
    Conc.pendingCredit d (p :: pend) files
      = (if parentDir p = d then (lookupF files p).getD 0 else 0)
        + Conc.pendingCredit d pend files := by
  unfold Conc.pendingCredit
  rw [List.map_cons, List.sum_cons]

/-- Deleting one file map entry can only shrink the pending credit. -/
theorem Conc.pendingCredit_eraseF_le (d : Path) (pend : List Path)
    (files : fileMap) (p : Path) :
    Conc.pendingCredit d pend (eraseF files p)
      ≤ Conc.pendingCredit d pend files := by
  unfold Conc.pendingCredit
  refine List.sum_le_sum ?_
  intro q _
  by_cases hqd : parentDir q = d
  · rw [if_pos hqd, if_pos hqd, lookupF_eraseF]
    by_cases hqp : q = p
    · rw [if_pos hqp]
      exact Nat.zero_le _
    · rw [if_neg hqp]
  · rw [if_neg hqd, if_neg hqd]

/-- Over the map's own (distinct) keys, the pending credit is exactly the
recorded size under each directory. -/
theorem Conc.pendingCredit_keys (d : Path) :
    ∀ l : fileMap, (l.map Prod.fst).Nodup →
      Conc.pendingCredit d (l.map Prod.fst) l = Conc.assocSizeUnder d l := by
  intro l
  induction l with
  | nil => intro _; rfl
  | cons kv l ih =>
    obtain ⟨k, v⟩ := kv
    intro hnd
    rw [List.map_cons] at hnd
    have hk : k ∉ l.map Prod.fst := (List.nodup_cons.mp hnd).1
    have hnd' : (l.map Prod.fst).Nodup := (List.nodup_cons.mp hnd).2
    rw [List.map_cons, Conc.pendingCredit_cons]
    have hlk : lookupF ((k, v) :: l) k = some v := by
      rw [lookupF, if_pos rfl]
    have htail : Conc.pendingCredit d (l.map Prod.fst) ((k, v) :: l)
        = Conc.pendingCredit d (l.map Prod.fst) l := by
      unfold Conc.pendingCredit
      refine congrArg List.sum (List.map_congr_left ?_)
      intro q hq
      have hqk : ¬(q = k) := fun hh => hk (hh ▸ hq)
      rw [lookupF, if_neg hqk]
    rw [hlk, htail, ih hnd', Conc.assocSizeUnder_cons]
    exact rfl

/-- Updating one directory record the way the walk callback does preserves
both size-budget invariants, for any file-map change that adds at most the
entry's size and only under the updated directory. -/
theorem Conc.set_dirs_inv (f : Conc.DirsMap) (files files' : fileMap)
    (d0 : Path) (sz : Nat)
    (hF : ∀ x, Conc.assocSizeUnder x files'
      ≤ Conc.assocSizeUnder x files + (if x = d0 then sz else 0))
    (h1 : ∀ d dm, f d = some dm →
      dm.Deleted = 0 ∧ Conc.assocSizeUnder d files ≤ dm.Size)
    (h2 : ∀ d, f d = none → Conc.assocSizeUnder d files = 0) :
    (∀ d dm, Conc.DirsMap.set f d0
        ⟨((f d0).getD ⟨0, 0⟩).Size + sz, ((f d0).getD ⟨0, 0⟩).Deleted⟩ d
        = some dm →
      dm.Deleted = 0 ∧ Conc.assocSizeUnder d files' ≤ dm.Size)
    ∧ (∀ d, Conc.DirsMap.set f d0
        ⟨((f d0).getD ⟨0, 0⟩).Size + sz, ((f d0).getD ⟨0, 0⟩).Deleted⟩ d
        = none →
      Conc.assocSizeUnder d files' = 0) := by
  constructor
  · intro d dm hdm
    by_cases hd : d = d0
    · rw [Conc.DirsMap.set, if_pos hd] at hdm
      cases hfd : f d0 with
      | some dmo =>
        rw [hfd] at hdm
        cases Option.some_inj.mp hdm
        obtain ⟨hdel, hle⟩ := h1 d0 dmo hfd
        refine ⟨hdel, ?_⟩
        have h5 := hF d0
        rw [if_pos rfl] at h5
        rw [hd]
        show Conc.assocSizeUnder d0 files' ≤ dmo.Size + sz
        omega
      | none =>
        rw [hfd] at hdm
        cases Option.some_inj.mp hdm
        refine ⟨rfl, ?_⟩
        have h5 := hF d0
        rw [if_pos rfl] at h5
        have h6 := h2 d0 hfd
        rw [hd]
        show Conc.assocSizeUnder d0 files' ≤ 0 + sz
        omega
    · rw [Conc.DirsMap.set, if_neg hd] at hdm
      obtain ⟨hdel, hle⟩ := h1 d dm hdm
      refine ⟨hdel, ?_⟩
      have h5 := hF d
      rw [if_neg hd] at h5
      omega
  · intro d hdm
    by_cases hd : d = d0
    · rw [Conc.DirsMap.set, if_pos hd] at hdm
      exact absurd hdm (Option.some_ne_none _)
    · rw [Conc.DirsMap.set, if_neg hd] at hdm
      have h5 := hF d
      rw [if_neg hd, Nat.add_zero, h2 d hdm] at h5
      exact Nat.le_zero.mp h5

/-- One walk step preserves the scan invariants: zero deleted bytes,
per-directory size dominating the recorded file sizes under it, and
distinct file-map keys. -/
theorem Conc.walkStep_preserves (exts : List String) (m : Conc.Metadata)
    (e : WalkEntry)
    (h1 : ∀ d dm, m.Dirs d = some dm →
      dm.Deleted = 0 ∧ Conc.assocSizeUnder d m.Files ≤ dm.Size)
    (h2 : ∀ d, m.Dirs d = none → Conc.assocSizeUnder d m.Files = 0)
    (h3 : (m.Files.map Prod.fst).Nodup) :
    (∀ d dm, (Conc.walkStep exts m e).Dirs d = some dm →
      dm.Deleted = 0
      ∧ Conc.assocSizeUnder d (Conc.walkStep exts m e).Files ≤ dm.Size)
    ∧ (∀ d, (Conc.walkStep exts m e).Dirs d = none →
        Conc.assocSizeUnder d (Conc.walkStep exts m e).Files = 0)
    ∧ ((Conc.walkStep exts m e).Files.map Prod.fst).Nodup := by
  cases hc : (!e.isDir && Conc.nameMatches (baseName e.path) exts) with
  | false =>
    have hF : ∀ x, Conc.assocSizeUnder x m.Files
        ≤ Conc.assocSizeUnder x m.Files
          + (if x = parentDir e.path then e.size else 0) :=
      fun x => Nat.le_add_right _ _
    have hmain := Conc.set_dirs_inv m.Dirs m.Files m.Files
      (parentDir e.path) e.size hF h1 h2
    refine ⟨?_, ?_, ?_⟩
    · intro d dm hdm
      rw [Conc.walkStep, hc] at hdm
      rw [Conc.walkStep, hc]
      exact hmain.1 d dm hdm
    · intro d hdm
      rw [Conc.walkStep, hc] at hdm
      rw [Conc.walkStep, hc]
      exact hmain.2 d hdm
    · rw [Conc.walkStep, hc]
      exact h3
  | true =>
    have hF : ∀ x, Conc.assocSizeUnder x (setF m.Files e.path e.size)
        ≤ Conc.assocSizeUnder x m.Files
          + (if x = parentDir e.path then e.size else 0) := by
      intro x
      refine Nat.le_trans (Conc.assocSizeUnder_setF_le x e.path e.size m.Files)
        ?_
      by_cases hx : x = parentDir e.path
      · rw [if_pos hx, if_pos hx.symm]
      · rw [if_neg hx, if_neg (fun hh => hx hh.symm)]
    have hmain := Conc.set_dirs_inv m.Dirs m.Files
      (setF m.Files e.path e.size) (parentDir e.path) e.size hF h1 h2
    refine ⟨?_, ?_, ?_⟩
    · intro d dm hdm
      rw [Conc.walkStep, hc] at hdm
      rw [Conc.walkStep, hc]
      exact hmain.1 d dm hdm
    · intro d hdm
      rw [Conc.walkStep, hc] at hdm
      rw [Conc.walkStep, hc]
      exact hmain.2 d hdm
    · rw [Conc.walkStep, hc]
      exact nodupKeys_setF m.Files e.path e.size h3

/-- The scan invariants hold after folding the walk callback over any
entry list, from any state satisfying them. -/
theorem Conc.walk_fold_inv (exts : List String) :
    ∀ (entries : List WalkEntry) (m : Conc.Metadata),
      (∀ d dm, m.Dirs d = some dm →
        dm.Deleted = 0 ∧ Conc.assocSizeUnder d m.Files ≤ dm.Size) →
      (∀ d, m.Dirs d = none → Conc.assocSizeUnder d m.Files = 0) →
      (m.Files.map Prod.fst).Nodup →
      (∀ d dm, (entries.foldl (Conc.walkStep exts) m).Dirs d = some dm →
        dm.Deleted = 0
        ∧ Conc.assocSizeUnder d (entries.foldl (Conc.walkStep exts) m).Files
            ≤ dm.Size)
      ∧ ((entries.foldl (Conc.walkStep exts) m).Files.map Prod.fst).Nodup := by
  intro entries
  induction entries with
  | nil =>
    intro m h1 h2 h3
    exact ⟨h1, h3⟩
  | cons e rest ih =>
    intro m h1 h2 h3
    obtain ⟨g1, g2, g3⟩ := Conc.walkStep_preserves exts m e h1 h2 h3
    rw [List.foldl_cons]
    exact ih (Conc.walkStep exts m e) g1 g2 g3

/-- After `WalkDirs`, every directory record has `Deleted` zero and a
`Size` dominating the recorded sizes of the matched files directly under
it, and the file map has distinct keys. -/
theorem Conc.WalkDirs_spec (entries : List WalkEntry) (exts : List String) :
    (∀ d dm, (Conc.WalkDirs entries exts).Dirs d = some dm →
      dm.Deleted = 0
      ∧ Conc.assocSizeUnder d (Conc.WalkDirs entries exts).Files ≤ dm.Size)
    ∧ ((Conc.WalkDirs entries exts).Files.map Prod.fst).Nodup := by
  refine Conc.walk_fold_inv exts entries ⟨fun _ => none, [], 0⟩ ?_ ?_ ?_
  · intro d dm hdm
    exact Option.noConfusion hdm
  · intro d _
    rfl
  · exact List.nodup_nil

/-- One deletion goroutine preserves the budget invariant: each recorded
`Deleted`, plus everything the still-pending deletions can credit to the
directory, stays within its recorded `Size`. -/
theorem Conc.delOne_preserves (removeOk : Path → Bool) (st : Conc.DelCState)
    (p : Path) (pend : List Path)
    (h : ∀ d dm, st.Dirs d = some dm →
      dm.Deleted + Conc.pendingCredit d (p :: pend) st.Files ≤ dm.Size) :
    ∀ d dm, (Conc.delOne removeOk st p).Dirs d = some dm →
      dm.Deleted + Conc.pendingCredit d pend (Conc.delOne removeOk st p).Files
        ≤ dm.Size := by
  have hmono : ∀ d dm, st.Dirs d = some dm →
      dm.Deleted + Conc.pendingCredit d pend st.Files ≤ dm.Size := by
    intro d dm hd
    refine Nat.le_trans ?_ (h d dm hd)
    rw [Conc.pendingCredit_cons]
    omega
  intro d dm hdm
  cases hrk : removeOk p with
  | false =>
    rw [Conc.delOne, hrk] at hdm
    have hdm' : st.Dirs d = some dm := hdm
    show dm.Deleted + Conc.pendingCredit d pend
        (Conc.delOne removeOk st p).Files ≤ dm.Size
    rw [Conc.delOne, hrk]
    exact hmono d dm hdm'
  | true =>
    have herase : lookupF (eraseF st.Files p) p = none := by
      rw [lookupF_eraseF, if_pos rfl]
    have hPC : Conc.pendingCredit d pend (eraseF st.Files p)
        ≤ Conc.pendingCredit d pend st.Files :=
      Conc.pendingCredit_eraseF_le d pend st.Files p
    rw [Conc.delOne, hrk] at hdm
    have hdm1 : Conc.ancLoop p (eraseF st.Files p) (parentDir p).length
        (parentDir p)
        (match st.Dirs (parentDir p) with
          | some dm0 => Conc.DirsMap.set st.Dirs (parentDir p)
              ⟨dm0.Size, dm0.Deleted + (lookupF st.Files p).getD 0⟩
          | none => st.Dirs) d = some dm := hdm
    rw [Conc.ancLoop_noop p (eraseF st.Files p) herase] at hdm1
    show dm.Deleted + Conc.pendingCredit d pend
        (Conc.delOne removeOk st p).Files ≤ dm.Size
    rw [Conc.delOne, hrk]
    show dm.Deleted + Conc.pendingCredit d pend (eraseF st.Files p) ≤ dm.Size
    cases hp : st.Dirs (parentDir p) with
    | none =>
      rw [hp] at hdm1
      have hdm2 : st.Dirs d = some dm := hdm1
      exact Nat.le_trans (Nat.add_le_add_left hPC _) (hmono d dm hdm2)
    | some dm0 =>
      rw [hp] at hdm1
      have hdm2 : Conc.DirsMap.set st.Dirs (parentDir p)
          ⟨dm0.Size, dm0.Deleted + (lookupF st.Files p).getD 0⟩ d
          = some dm := hdm1
      by_cases hd : d = parentDir p
      · rw [Conc.DirsMap.set, if_pos hd] at hdm2
        cases Option.some_inj.mp hdm2
        have hb := h (parentDir p) dm0 hp
        rw [Conc.pendingCredit_cons, if_pos rfl] at hb
        have hPC2 : Conc.pendingCredit (parentDir p) pend (eraseF st.Files p)
            ≤ Conc.pendingCredit (parentDir p) pend st.Files :=
          Conc.pendingCredit_eraseF_le (parentDir p) pend st.Files p
        rw [hd]
        show dm0.Deleted + (lookupF st.Files p).getD 0
            + Conc.pendingCredit (parentDir p) pend (eraseF st.Files p)
            ≤ dm0.Size
        omega
      · rw [Conc.DirsMap.set, if_neg hd] at hdm2
        exact Nat.le_trans (Nat.add_le_add_left hPC _) (hmono d dm hdm2)

/-- Every prefix of the concurrent deletion round keeps `Deleted` within
`Size`, provided the starting state has enough budget. -/
theorem Conc.delRound_le (removeOk : Path → Bool) :
    ∀ (order : List Path) (st : Conc.DelCState),
      (∀ d dm, st.Dirs d = some dm →
        dm.Deleted + Conc.pendingCredit d order st.Files ≤ dm.Size) →
      ∀ (k : Nat) d dm,
        ((order.take k).foldl (Conc.delOne removeOk) st).Dirs d = some dm →
        dm.Deleted ≤ dm.Size := by
  intro order
  induction order with
  | nil =>
    intro st h k d dm hdm
    rw [List.take_nil, List.foldl_nil] at hdm
    have := h d dm hdm
    omega
  | cons p rest ih =>
    intro st h k d dm hdm
    cases k with
    | zero =>
      rw [List.take_zero, List.foldl_nil] at hdm
      have := h d dm hdm
      omega
    | succ k =>
      rw [List.take_succ_cons, List.foldl_cons] at hdm
      exact ih (Conc.delOne removeOk st p)
        (Conc.delOne_preserves removeOk st p rest h) k d dm hdm

/-- Membership characterisation of the sequential `matchExt`. -/
theorem Seq.matchExt_mem_iff (file : String) (exts : List String) :
    Seq.matchExt file exts = true ↔ trimLeftDots (goExt file) ∈ exts := by
  simp only [Seq.matchExt, List.any_eq_true, decide_eq_true_eq]
  exact ⟨fun ⟨e, he, h⟩ => h ▸ he, fun h => ⟨_, h, rfl⟩⟩

/-- Membership characterisation of the concurrent `matchExt`. -/
theorem Conc.matchExt_lower_iff (ext : String) (exts : List String) :
    Conc.matchExt ext exts = true ↔ goToLower ext ∈ exts := by
  simp only [Conc.matchExt, List.any_eq_true, decide_eq_true_eq]
  exact ⟨fun ⟨e, he, h⟩ => h ▸ he, fun h => ⟨_, h, rfl⟩⟩

/-- C4: the claim that extension matching is case-insensitive fails on the
sequential variant, whose `matchExt` compares the dot-stripped extension
exactly: `IMAGE.PNG` does not match the requested extension `png` there. -/
theorem C4_counterexample : Seq.matchExt "IMAGE.PNG" ["png"] = false := by decide

/-- C4 (amended): the sequential `matchExt` matches exactly (hence
case-sensitively) on the dot-stripped extension; the concurrent variant
lowercases only the file's extension before the exact comparison, so
`IMAGE.PNG` matches a requested `png` there while `image.png` does not
match a requested `PNG`. -/
theorem C4_matching_characterised :
    (∀ file exts, Seq.matchExt file exts = true
      ↔ trimLeftDots (goExt file) ∈ exts)
    ∧ (∀ ext exts, Conc.matchExt ext exts = true ↔ goToLower ext ∈ exts)
    ∧ Seq.matchExt "IMAGE.PNG" ["png"] = false
    ∧ Conc.nameMatches "IMAGE.PNG" ["png"] = true
    ∧ Conc.nameMatches "image.png" ["PNG"] = false :=
  ⟨Seq.matchExt_mem_iff, Conc.matchExt_lower_iff,
    by decide, by decide, by decide⟩

/-- C5: the claim fails as stated: parsing the option value `png,` yields
the non-empty extension set `[png, ""]`, whose empty entry the
extensionless `Makefile` does match. -/
theorem C5_counterexample :
    Seq.matchExt "Makefile" (parseExts "png,") = true
      ∧ parseExts "png," ≠ [] := by decide

/-- C5 (amended): a filename with no extension matches neither variant's
test as long as every entry of the requested set is non-empty; a
comma-separated option value with an empty segment parses to a set with an
empty entry, which such a file does match. -/
theorem C5_no_extension_never_matches (name : String) (exts : List String)
    (hname : goExt name = "") (hexts : ∀ e ∈ exts, e ≠ "") :
    Seq.matchExt name exts = false ∧ Conc.nameMatches name exts = false := by
  have htc : trimLeftDots "" = "" := by decide
  have hwc : Conc.walkExtOf name = "" := by
    rw [Conc.walkExtOf, hname]; decide
  constructor
  · rw [← Bool.not_eq_true, Seq.matchExt_mem_iff, hname, htc]
    intro h
    exact hexts "" h rfl
  · rw [Conc.nameMatches, ← Bool.not_eq_true, Conc.matchExt_lower_iff, hwc]
    intro h
    have : goToLower "" = "" := by decide
    rw [this] at h
    exact hexts "" h rfl

/-- C5 witness. -/
theorem C5_witness :
    goExt "Makefile" = "" ∧ (∀ e ∈ ["png", "txt"], e ≠ "")
      ∧ Seq.matchExt "Makefile" ["png", "txt"] = false
      ∧ Conc.nameMatches "Makefile" ["png", "txt"] = false :=
  ⟨by decide, by decide,
    (C5_no_extension_never_matches "Makefile" ["png", "txt"] (by decide)
      (by decide)).1,
    (C5_no_extension_never_matches "Makefile" ["png", "txt"] (by decide)
      (by decide)).2⟩

/-- C2: behaviour when the input stream is exhausted at the confirmation
prompt.  The sequential variant is fatal as the claim says: the failed read
hits `log.Fatal`, the process exits with code 1 and deletes nothing.  The
concurrent variant, however, discards the read error and loops forever
re-printing the prompt (modelled by `none`), so it never exits at all. -/
theorem C2_confirm_stream_error :
    Seq.askForConfirmation [] = none
    ∧ Conc.askConfirm [] = none
    ∧ Seq.action treeOne ["png"] [] removeAll = ⟨[], 1, [], false, true, true⟩
    ∧ Conc.action treeOne ["png"] [] removeAll = none :=
  ⟨rfl, rfl, by decide, by decide⟩

/-- C9: the sequential `deleteFilesByExtension` discards the walk's error
and returns nil on every input; consequently on a tree with two matched
files where removing the first fails (which silently stops the walk, so
the second is never deleted), the orchestrator still exits with code 0
having removed nothing. -/
theorem C9_walk_error_discarded :
    (∀ entries exts dmap removeOk,
        (Seq.deleteFilesByExtension entries exts dmap removeOk).2 = none)
    ∧ (Seq.collectFileSizes treeTwo ["png"]).1.map Prod.fst
        = [["r", "a.png"], ["r", "b.png"]]
    ∧ removeNotA ["r", "b.png"] = true
    ∧ Seq.action treeTwo ["png"] ["y"] removeNotA = ⟨[], 0, [], true, true, true⟩ :=
  ⟨fun _ _ _ _ => rfl, by decide, by decide, by decide⟩

/-- C1: in both variants, if the scan matched something and the user
declines the confirmation prompt, the orchestrator prints the exiting
message, returns nil (exit code 0), removes no file, and never renders the
directory summary. -/
theorem C1_decline_skips_deletion :
    (∀ entries exts inputs removeOk,
        (Seq.collectFileSizes entries exts).1.length ≠ 0 →
        Seq.askForConfirmation inputs = some false →
        Seq.action entries exts inputs removeOk
          = ⟨["exiting..."], 0, [], false, true, true⟩)
    ∧ (∀ entries exts inputs removeOk,
        (Conc.WalkDirs entries exts).Total ≠ 0 →
        Conc.askConfirm inputs = some false →
        Conc.action entries exts inputs removeOk
          = some ⟨["Exiting..."], 0, [], false, true, true⟩) := by
  constructor
  · intro entries exts inputs removeOk h1 h2
    simp only [Seq.action, h2, if_neg h1]
  · intro entries exts inputs removeOk h1 h2
    simp only [Conc.action, h2, if_neg h1]

/-- C1 witness. -/
theorem C1_witness :
    ((Seq.collectFileSizes treeTwo ["png"]).1.length ≠ 0
      ∧ Seq.askForConfirmation ["n"] = some false
      ∧ Seq.action treeTwo ["png"] ["n"] removeAll
          = ⟨["exiting..."], 0, [], false, true, true⟩)
    ∧ ((Conc.WalkDirs treeTwo ["png"]).Total ≠ 0
      ∧ Conc.askConfirm ["n"] = some false
      ∧ Conc.action treeTwo ["png"] ["n"] removeAll
          = some ⟨["Exiting..."], 0, [], false, true, true⟩) :=
  ⟨⟨by decide, by decide,
      C1_decline_skips_deletion.1 treeTwo ["png"] ["n"] removeAll (by decide)
        (by decide)⟩,
    ⟨by decide, by decide,
      C1_decline_skips_deletion.2 treeTwo ["png"] ["n"] removeAll (by decide)
        (by decide)⟩⟩

/-- C7: the claim fails on the sequential variant, which tests the matched
file count rather than the matched byte total: on a tree whose only
matched file has size zero the matched total is zero, yet the sequential
orchestrator does not print the nothing-to-delete message and still runs
the file listing and the confirmation prompt. -/
theorem C7_counterexample :
    (Seq.collectFileSizes treeZero ["png"]).2 = 0
    ∧ (Seq.action treeZero ["png"] ["n"] removeAll).promptRan = true
    ∧ (Seq.action treeZero ["png"] ["n"] removeAll).fileReportShown = true
    ∧ (Seq.action treeZero ["png"] ["n"] removeAll).printed
        = ["exiting..."] := by decide

/-- C7 (amended): the concurrent variant behaves exactly as claimed when
the matched byte total is zero; the sequential variant gives the same
nothing-to-delete exit when the matched file count is zero (its actual
test), which only coincides with the claim when no matched file exists. -/
theorem C7_nothing_to_delete :
    (∀ entries exts inputs removeOk,
        (Conc.WalkDirs entries exts).Total = 0 →
        Conc.action entries exts inputs removeOk
          = some ⟨["Nothing to delete"], 0, [], false, false, false⟩)
    ∧ (∀ entries exts inputs removeOk,
        (Seq.collectFileSizes entries exts).1.length = 0 →
        Seq.action entries exts inputs removeOk
          = ⟨["There is nothing to delete. Exiting..."], 0, [], false, false,
              false⟩) := by
  constructor
  · intro entries exts inputs removeOk h
    simp only [Conc.action, h, if_pos]
  · intro entries exts inputs removeOk h
    simp only [Seq.action, h, if_pos]

/-- C7 witness. -/
theorem C7_witness :
    ((Conc.WalkDirs treeZero ["png"]).Total = 0
      ∧ Conc.action treeZero ["png"] [] removeAll
          = some ⟨["Nothing to delete"], 0, [], false, false, false⟩)
    ∧ ((Seq.collectFileSizes treeTwo ["txt"]).1.length = 0
      ∧ Seq.action treeTwo ["txt"] [] removeAll
          = ⟨["There is nothing to delete. Exiting..."], 0, [], false, false,
              false⟩) :=
  ⟨⟨by decide, C7_nothing_to_delete.1 treeZero ["png"] [] removeAll (by decide)⟩,
    ⟨by decide, C7_nothing_to_delete.2 treeTwo ["txt"] [] removeAll (by decide)⟩⟩

/-- C8: a file whose removal fails is never credited: the sequential walk
step leaves the directory map (and the removed list) untouched when
`os.Remove` fails, and the concurrent goroutine leaves the whole state
untouched when its `os.Remove` fails. -/
theorem C8_failed_removal_not_credited :
    (∀ exts removeOk s e, removeOk e.path = false →
        (Seq.delStep exts removeOk s e).dmap = s.dmap
        ∧ (Seq.delStep exts removeOk s e).removed = s.removed)
    ∧ (∀ removeOk st p, removeOk p = false →
        Conc.delOne removeOk st p = st) := by
  constructor
  · intro exts removeOk s e h
    unfold Seq.delStep
    split
    · exact ⟨rfl, rfl⟩
    · split
      · exact ⟨rfl, rfl⟩
      · split
        · split
          · rw [h]
            exact ⟨rfl, rfl⟩
          · exact ⟨rfl, rfl⟩
        · exact ⟨rfl, rfl⟩
  · intro removeOk st p h
    simp only [Conc.delOne, h, Bool.false_eq_true, if_false]

/-- C8 witness. -/
theorem C8_witness :
    ((fun _ : Path => false) ["r", "a.png"] = false
      ∧ (Seq.delStep ["png"] (fun _ => false)
            ⟨Seq.collectDirSizes treeTwo, [], false⟩
            ⟨["r", "a.png"], false, 10⟩).dmap = Seq.collectDirSizes treeTwo
      ∧ (Seq.delStep ["png"] (fun _ => false)
            ⟨Seq.collectDirSizes treeTwo, [], false⟩
            ⟨["r", "a.png"], false, 10⟩).removed = [])
    ∧ Conc.delOne (fun _ => false)
        ⟨(Conc.WalkDirs treeTwo ["png"]).Dirs,
          (Conc.WalkDirs treeTwo ["png"]).Files, 0, []⟩ ["r", "a.png"]
        = ⟨(Conc.WalkDirs treeTwo ["png"]).Dirs,
            (Conc.WalkDirs treeTwo ["png"]).Files, 0, []⟩ :=
  ⟨⟨rfl,
      (C8_failed_removal_not_credited.1 ["png"] (fun _ => false)
        ⟨Seq.collectDirSizes treeTwo, [], false⟩
        ⟨["r", "a.png"], false, 10⟩ rfl).1,
      (C8_failed_removal_not_credited.1 ["png"] (fun _ => false)
        ⟨Seq.collectDirSizes treeTwo, [], false⟩
        ⟨["r", "a.png"], false, 10⟩ rfl).2⟩,
    C8_failed_removal_not_credited.2 (fun _ => false)
      ⟨(Conc.WalkDirs treeTwo ["png"]).Dirs,
        (Conc.WalkDirs treeTwo ["png"]).Files, 0, []⟩ ["r", "a.png"] rfl⟩

/-- C3: the claim fails on the sequential variant: with two matched files
under the root and removal failing only on the first, the removed list is
empty — the failure made the walk callback return the error, which aborted
the walk before the second (removable, matched) file was attempted. -/
theorem C3_counterexample :
    ((Seq.deleteFilesByExtension treeTwo ["png"]
        (Seq.collectDirSizes treeTwo) removeNotA).1).removed = []
    ∧ Seq.matchExt "b.png" ["png"] = true
    ∧ removeNotA ["r", "b.png"] = true := by decide

/-- C3 (amended): the concurrent deletion executor tolerates partial
failure — whatever removals fail, every file in the batch whose removal
succeeds is removed — while the sequential executor aborts: once a failed
removal sets the error, every later walk step leaves the state untouched. -/
theorem C3_partial_failure_tolerance :
    (∀ (removeOk : Path → Bool) (st : Conc.DelCState) (order : List Path),
        (order.foldl (Conc.delOne removeOk) st).removed
          = st.removed ++ order.filter (fun p => removeOk p))
    ∧ (∀ exts removeOk (s : Seq.DelState) e, s.aborted = true →
        Seq.delStep exts removeOk s e = s) := by
  constructor
  · intro removeOk st order
    exact Conc.foldl_delOne_removed removeOk order st
  · intro exts removeOk s e h
    unfold Seq.delStep
    rw [if_pos h]

/-- C3 witness. -/
theorem C3_witness :
    (([["r", "a.png"], ["r", "b.png"]] : List Path).foldl
        (Conc.delOne removeNotA)
        ⟨(Conc.WalkDirs treeTwo ["png"]).Dirs,
          (Conc.WalkDirs treeTwo ["png"]).Files, 0, []⟩).removed
      = [] ++ ([["r", "a.png"], ["r", "b.png"]] : List Path).filter
          (fun p => removeNotA p)
    ∧ ((⟨Seq.collectDirSizes treeTwo, [], true⟩ : Seq.DelState).aborted = true
      ∧ Seq.delStep ["png"] removeAll
          ⟨Seq.collectDirSizes treeTwo, [], true⟩ ⟨["r", "b.png"], false, 20⟩
        = ⟨Seq.collectDirSizes treeTwo, [], true⟩) :=
  ⟨C3_partial_failure_tolerance.1 removeNotA
      ⟨(Conc.WalkDirs treeTwo ["png"]).Dirs,
        (Conc.WalkDirs treeTwo ["png"]).Files, 0, []⟩
      [["r", "a.png"], ["r", "b.png"]],
    ⟨rfl, C3_partial_failure_tolerance.2 ["png"] removeAll
      ⟨Seq.collectDirSizes treeTwo, [], true⟩ ⟨["r", "b.png"], false, 20⟩ rfl⟩⟩

/-- C10: in the concurrent variant each successful deletion changes the
directory map only at the file's immediate parent — whose `Deleted` rises
by the file's recorded size — because the ancestor loop and the
`totalDeleted` accumulator both read the file's map entry after it was
deleted from `Files` and so add zero; consequently `Metadata.Total` is
unchanged by the whole deletion phase. -/
theorem C10_success_credits_only_parent :
    (∀ (removeOk : Path → Bool) (st : Conc.DelCState) p,
        removeOk p = true →
        ((∀ d, d ≠ parentDir p →
            (Conc.delOne removeOk st p).Dirs d = st.Dirs d)
          ∧ (Conc.delOne removeOk st p).Dirs (parentDir p)
              = (match st.Dirs (parentDir p) with
                  | some dm =>
                    some ⟨dm.Size,
                      dm.Deleted + (lookupF st.Files p).getD 0⟩
                  | none => none)))
    ∧ (∀ meta removeOk, (Conc.deleteFiles meta removeOk).1.Total
        = meta.Total) := by
  constructor
  · intro removeOk st p h
    have herase : lookupF (eraseF st.Files p) p = none := by
      rw [lookupF_eraseF, if_pos rfl]
    constructor
    · intro d hd
      rw [Conc.delOne, if_pos h]
      show Conc.ancLoop p (eraseF st.Files p) (parentDir p).length
          (parentDir p) _ d = st.Dirs d
      rw [Conc.ancLoop_noop p (eraseF st.Files p) herase]
      cases hp : st.Dirs (parentDir p) with
      | none => rfl
      | some dm =>
        show Conc.DirsMap.set st.Dirs (parentDir p) _ d = st.Dirs d
        unfold Conc.DirsMap.set
        rw [if_neg hd]
    · rw [Conc.delOne, if_pos h]
      show Conc.ancLoop p (eraseF st.Files p) (parentDir p).length
          (parentDir p) _ (parentDir p) = _
      rw [Conc.ancLoop_noop p (eraseF st.Files p) herase]
      cases hp : st.Dirs (parentDir p) with
      | none => exact hp
      | some dm =>
        show Conc.DirsMap.set st.Dirs (parentDir p) _ (parentDir p) = _
        unfold Conc.DirsMap.set
        rw [if_pos rfl]
  · intro meta removeOk
    cases h : (meta.Files.map Prod.fst).isEmpty
    · simp only [Conc.deleteFiles, h, Bool.false_eq_true, if_false,
        Conc.foldl_delOne_totalDeleted, Nat.sub_zero]
    · simp only [Conc.deleteFiles, h, if_true]

/-- C10 witness. -/
theorem C10_witness :
    removeAll ["r", "a.png"] = true
    ∧ (Conc.delOne removeAll
        ⟨(Conc.WalkDirs treeTwo ["png"]).Dirs,
          (Conc.WalkDirs treeTwo ["png"]).Files, 0, []⟩ ["r", "a.png"]).Dirs []
        = (Conc.WalkDirs treeTwo ["png"]).Dirs []
    ∧ (Conc.delOne removeAll
        ⟨(Conc.WalkDirs treeTwo ["png"]).Dirs,
          (Conc.WalkDirs treeTwo ["png"]).Files, 0, []⟩ ["r", "a.png"]).Dirs ["r"]
        = (match (Conc.WalkDirs treeTwo ["png"]).Dirs ["r"] with
            | some dm =>
              some ⟨dm.Size, dm.Deleted
                + (lookupF (Conc.WalkDirs treeTwo ["png"]).Files
                    ["r", "a.png"]).getD 0⟩
            | none => none)
    ∧ (Conc.deleteFiles (Conc.WalkDirs treeTwo ["png"]) removeAll).1.Total
        = (Conc.WalkDirs treeTwo ["png"]).Total :=
  ⟨rfl,
    (C10_success_credits_only_parent.1 removeAll
        ⟨(Conc.WalkDirs treeTwo ["png"]).Dirs,
          (Conc.WalkDirs treeTwo ["png"]).Files, 0, []⟩ ["r", "a.png"] rfl).1
      [] (by decide),
    (C10_success_credits_only_parent.1 removeAll
        ⟨(Conc.WalkDirs treeTwo ["png"]).Dirs,
          (Conc.WalkDirs treeTwo ["png"]).Files, 0, []⟩ ["r", "a.png"] rfl).2,
    C10_success_credits_only_parent.2 (Conc.WalkDirs treeTwo ["png"])
      removeAll⟩

/-- C6: in both variants, every directory record satisfies the invariant
that its deleted-bytes counter never exceeds its recorded size: right
after the scan creates it (prefix length zero) and after every step of the
deletion phase.  The sequential part assumes the walk is well-formed
(directories visited once, before the entries inside them), which
`filepath.Walk` guarantees; the concurrent part needs no assumption. -/
theorem C6_deleted_within_size :
    (∀ entries exts removeOk (k : Nat) d meta,
        wfFrom [] entries = true →
        ((entries.take k).foldl (Seq.delStep exts removeOk)
            ⟨Seq.collectDirSizes entries, [], false⟩).dmap d = some meta →
        meta.bytesDeleted ≤ meta.size)
    ∧ (∀ entries exts removeOk (k : Nat) d dm,
        ((((Conc.WalkDirs entries exts).Files.map Prod.fst).take k).foldl
            (Conc.delOne removeOk)
            ⟨(Conc.WalkDirs entries exts).Dirs,
              (Conc.WalkDirs entries exts).Files, 0, []⟩).Dirs d = some dm →
        dm.Deleted ≤ dm.Size) := by
  constructor
  · intro entries exts removeOk k d meta hwf hm
    refine Seq.delWalk_le exts removeOk entries
      ⟨Seq.collectDirSizes entries, [], false⟩ ?_ k d meta hm
    intro x mx hx
    have hspec := Seq.collectDirSizes_spec entries hwf x mx hx
    have hmle := Seq.sumMatchedUnder_le exts x entries
    omega
  · intro entries exts removeOk k d dm hm
    have hspec := Conc.WalkDirs_spec entries exts
    refine Conc.delRound_le removeOk
      ((Conc.WalkDirs entries exts).Files.map Prod.fst)
      ⟨(Conc.WalkDirs entries exts).Dirs,
        (Conc.WalkDirs entries exts).Files, 0, []⟩ ?_ k d dm hm
    intro x dx hx
    have hx' : (Conc.WalkDirs entries exts).Dirs x = some dx := hx
    obtain ⟨hdel, hsz⟩ := hspec.1 x dx hx'
    show dx.Deleted + Conc.pendingCredit x
        ((Conc.WalkDirs entries exts).Files.map Prod.fst)
        (Conc.WalkDirs entries exts).Files ≤ dx.Size
    rw [hdel, Conc.pendingCredit_keys x (Conc.WalkDirs entries exts).Files
      hspec.2, Nat.zero_add]
    exact hsz

/-- C6 witness. -/
theorem C6_witness :
    (wfFrom [] treeTwo = true
      ∧ ((treeTwo.take 3).foldl (Seq.delStep ["png"] removeAll)
          ⟨Seq.collectDirSizes treeTwo, [], false⟩).dmap ["r"]
          = some ⟨30, 30⟩
      ∧ (⟨30, 30⟩ : dirMeta).bytesDeleted ≤ (⟨30, 30⟩ : dirMeta).size)
    ∧ (((((Conc.WalkDirs treeTwo ["png"]).Files.map Prod.fst).take 2).foldl
          (Conc.delOne removeAll)
          ⟨(Conc.WalkDirs treeTwo ["png"]).Dirs,
            (Conc.WalkDirs treeTwo ["png"]).Files, 0, []⟩).Dirs ["r"]
          = some ⟨30, 30⟩
      ∧ (⟨30, 30⟩ : Conc.DirMeta).Deleted ≤ (⟨30, 30⟩ : Conc.DirMeta).Size) :=
  ⟨⟨by decide, by decide,
      C6_deleted_within_size.1 treeTwo ["png"] removeAll 3 ["r"] ⟨30, 30⟩
        (by decide) (by decide)⟩,
    ⟨by decide,
      C6_deleted_within_size.2 treeTwo ["png"] removeAll 2 ["r"] ⟨30, 30⟩
        (by decide)⟩⟩

end Delly
